import Mathlib

/-!
Verification of the chunking + retrieval core of the crypto-regulator-checker
backend (files `document_processing/chunking.py`, `vector_store/memory_store.py`,
`vector_store/memory.py`, `rag/retrieval.py`).

Python strings are modelled as `List Char` (`Str`); Python `int` as `Int` where
sign matters (e.g. `str.find` returning `-1`) and as `Nat` for positions and
lengths that the code keeps non-negative; NumPy float vectors as `List ℝ`
(exact reals stand in for IEEE floats).  Python dicts keyed by generated uuids
are modelled as association lists in insertion order, and the uuid4 stream is
passed in explicitly as a list of fresh identifiers.  Unbounded `while` loops
and regex scans are written with an explicit fuel argument that the top-level
wrappers instantiate large enough for the loop's own progress measure; all the
invariants proved below hold for every fuel value.
-/

namespace Gandalf

/-- Python strings modelled as lists of characters. -/
abbrev Str := List Char

/-- ASCII whitespace as matched by Python's `str.strip` and regex `\s`
(space, tab, newline, carriage return, form feed, vertical tab). -/
def pySpace (c : Char) : Bool :=
  c = ' ' || c = '\t' || c = '\n' || c = '\r' || c = Char.ofNat 12 || c = Char.ofNat 11

/-- Python `s.strip()`: drop leading and trailing whitespace. -/
def pyStrip (s : Str) : Str :=
  ((s.dropWhile pySpace).reverse.dropWhile pySpace).reverse

/-- Python slice `s[a:b]` for `0 ≤ a, b`. -/
def pySlice (s : Str) (a b : Nat) : Str :=
  (s.drop a).take (b - a)

/-- Python `s.split('\n')` (returns at least one piece, separators removed). -/
def splitNl : Str → List Str
  | [] => [[]]
  | c :: rest =>
    if c = '\n' then [] :: splitNl rest
    else
      match splitNl rest with
      | [] => [[c]]
      | p :: ps => (c :: p) :: ps

/-- Auxiliary for `pyFind`: the first index `i` with `start ≤ i ≤ s.length`
at which `sub` occurs in `s`, if any. -/
def pyFindAux (s sub : Str) (start : Nat) : Option Nat :=
  (List.range (s.length + 1)).find? (fun i => decide (start ≤ i) && sub.isPrefixOf (s.drop i))

/-- Python `s.find(sub, start)`: first occurrence index at or after `start`,
or `-1` when `sub` does not occur there. -/
def pyFind (s sub : Str) (start : Nat) : Int :=
  match pyFindAux s sub start with
  | some j => (j : Int)
  | none => -1

/-- Indices (starting at offset `i`) of the newline characters of a string;
models `re.finditer(r'\n', s)` match starts. -/
def nlPositions : Str → Nat → List Nat
  | [], _ => []
  | c :: rest, i =>
    if c = '\n' then i :: nlPositions rest (i + 1) else nlPositions rest (i + 1)

/-- Sentence-terminal characters of the regex class `[.!?]`. -/
def sentEndChar (c : Char) : Bool :=
  c = '.' || c = '!' || c = '?'

/-- Characters of the regex class `[\s"\')\]}]` (whitespace or closing
punctuation allowed after a sentence terminator). -/
def sentCloser (c : Char) : Bool :=
  pySpace c || c = Char.ofNat 34 || c = Char.ofNat 39 || c = ')' || c = ']' || c = Char.ofNat 125

/-- End positions (offset by `i`) of the non-overlapping matches of
`re.finditer(r'[.!?][\s"\')\]}]*', s)`: each match is a sentence terminator
plus the maximal run of closing characters after it. -/
def sentMatchEnds : Nat → Str → Nat → List Nat
  | 0, _, _ => []
  | _ + 1, [], _ => []
  | fuel + 1, c :: rest, i =>
    if sentEndChar c then
      let run := rest.takeWhile sentCloser
      (i + 1 + run.length) :: sentMatchEnds fuel (rest.drop run.length) (i + 1 + run.length)
    else
      sentMatchEnds fuel rest (i + 1)

/-- Auxiliary scan for `re.split(r'\n\s*\n', text)`: a match starts at a
newline whose maximal whitespace run contains a later newline; the (greedy)
match extends to the last newline of that run. -/
def majorSplitAux : Nat → Str → Str → List Str
  | 0, _, acc => [acc.reverse]
  | _ + 1, [], acc => [acc.reverse]
  | fuel + 1, c :: rest, acc =>
    if c = '\n' then
      let run := (c :: rest).takeWhile pySpace
      let j := run.length - 1 - run.reverse.indexOf '\n'
      if 1 ≤ j then acc.reverse :: majorSplitAux fuel ((c :: rest).drop (j + 1)) []
      else majorSplitAux fuel rest (c :: acc)
    else
      majorSplitAux fuel rest (c :: acc)

/-- Python `re.split(r'\n\s*\n', text)`. -/
def majorSplit (s : Str) : List Str :=
  majorSplitAux (s.length + 1) s []

/-- Auxiliary scan for `re.split(r'(?<=[.!?])\s+', s)`: a separator is a
maximal whitespace run immediately preceded by a sentence terminator. -/
def sentSplitAux : Nat → Str → Str → List Str
  | 0, _, acc => [acc.reverse]
  | _ + 1, [], acc => [acc.reverse]
  | fuel + 1, c :: rest, acc =>
    if pySpace c && (match acc.head? with | some p => sentEndChar p | none => false) then
      let ws := (c :: rest).takeWhile pySpace
      acc.reverse :: sentSplitAux fuel ((c :: rest).drop ws.length) []
    else
      sentSplitAux fuel rest (c :: acc)

/-- Python `re.split(r'(?<=[.!?])\s+', s)`. -/
def sentSplit (s : Str) : List Str :=
  sentSplitAux (s.length + 1) s []

/-- Python `[sentence[i:i+size] for i in range(0, len(sentence), size)]`
(the recursive chunker's last-resort fixed-offset split). -/
def pySlices : Nat → Str → Nat → List Str
  | 0, _, _ => []
  | fuel + 1, s, size =>
    if s = [] then [] else s.take size :: pySlices fuel (s.drop size) size

/-- Python `'\n'.join(parts)`. -/
def joinNl (parts : List Str) : Str :=
  List.intercalate ['\n'] parts

/-! ### Chunk model and configuration (`chunking.py`) -/

/-- Post-validation chunking configuration (`ChunkConfig` dataclass); the
fields are `Nat` because validation guarantees they are non-negative. -/
structure ChunkConfig where
  chunk_size : Nat
  chunk_overlap : Nat
  min_chunk_size : Nat
  split_on_newline : Bool
  respect_sentences : Bool
deriving DecidableEq

/-- Construction of `ChunkConfig` with the `__post_init__` validation; the
raw dataclass arguments are Python ints, and each failed check raises
`ValueError` with the message of the source. -/
def mkChunkConfig (chunk_size chunk_overlap min_chunk_size : Int)
    (split_on_newline respect_sentences : Bool) : Except String ChunkConfig :=
  if chunk_size ≤ 0 then .error ("Chunk size must be positive")
  else if chunk_overlap < 0 then .error ("Chunk overlap must be non-negative")
  else if chunk_size ≤ chunk_overlap then .error ("Chunk overlap must be less than chunk size")
  else if min_chunk_size ≤ 0 then .error ("Minimum chunk size must be positive")
  else if chunk_size < min_chunk_size then .error ("Minimum chunk size must not exceed chunk size")
  else .ok ⟨chunk_size.toNat, chunk_overlap.toNat, min_chunk_size.toNat,
    split_on_newline, respect_sentences⟩

/-- A chunk of text with metadata (`TextChunk` dataclass).  `σ` is the text
representation (`Str` for the chunkers, `String` for the in-memory store that
re-wraps stored texts) and `μ` the metadata type (`metadata.copy()` is value
copying, so metadata is carried as a value). -/
structure TextChunk (σ μ : Type) where
  text : σ
  metadata : μ
  start_char : Int
  end_char : Int
  chunk_index : Nat
deriving DecidableEq

/-- Accumulator of a chunking run: chunks collected so far plus the running
`chunk_index` counter. -/
abbrev ChunkAcc (μ : Type) := List (TextChunk Str μ) × Nat

/-- Append one chunk whose `start_char` is `text.find(ct, pos)` and whose
`end_char` is `start_char + len(ct)`, then advance the index counter. -/
def pushFrom (text : Str) (meta : μ) (pos : Nat) (st : ChunkAcc μ) (ct : Str) : ChunkAcc μ :=
  let s := pyFind text ct pos
  (st.1 ++ [⟨ct, meta, s, s + (ct.length : Int), st.2⟩], st.2 + 1)

/-- Append one chunk located with `text.find(ct)` (search from 0), as the
recursive chunker does. -/
def pushChunk (text : Str) (meta : μ) (st : ChunkAcc μ) (ct : Str) : ChunkAcc μ :=
  pushFrom text meta 0 st ct

/-! ### SimpleChunker (`chunking.py` lines 63–203) -/

/-- Model of `SimpleChunker._find_newline_boundary`: positions of newlines in
`text[s:e]`, shifted by `s`, filtered to those leaving `min_chunk_size`
characters; the first such is returned, else `e`. -/
def findNewlineBoundary (text : Str) (s e minSz : Nat) : Nat :=
  let search := pySlice text s e
  let bs := ((nlPositions search 0).map (fun r => s + r)).filter (fun p => decide (s + minSz < p))
  (bs.find? (fun p => decide (s + minSz < p))).getD e

/-- Model of `SimpleChunker._find_sentence_boundary`: match-end positions of
sentence boundaries in `text[s:e]`, shifted by `s`, filtered to those leaving
`min_chunk_size` characters; the last one `≤ e` is returned, else `e`. -/
def findSentenceBoundary (text : Str) (s e minSz : Nat) : Nat :=
  let search := pySlice text s e
  let bs := ((sentMatchEnds (search.length + 1) search 0).map (fun r => s + r)).filter
    (fun p => decide (s + minSz < p))
  (bs.reverse.find? (fun p => decide (p ≤ e))).getD e

/-- The chunk end computed by one iteration of `SimpleChunker.chunk_text`
(lines 85–99): size cutoff, then optional newline boundary, then optional
sentence boundary. -/
def simpleEnd (cfg : ChunkConfig) (text : Str) (pos : Nat) : Nat :=
  let n := text.length
  let e0 := min (pos + cfg.chunk_size) n
  let e1 :=
    if cfg.split_on_newline ∧ e0 < n then
      let p := findNewlineBoundary text pos e0 cfg.min_chunk_size
      if pos + cfg.min_chunk_size < p then p else e0
    else e0
  if e1 < n ∧ cfg.respect_sentences then
    let p := findSentenceBoundary text pos e1 cfg.min_chunk_size
    if pos + cfg.min_chunk_size < p then p else e1
  else e1

/-- Model of lines 134–137 of `SimpleChunker.chunk_text`:
`current_pos = chunk_end - chunk_overlap; if current_pos <= current_pos:
current_pos = chunk_end`.  The guard compares the updated cursor with itself,
so it is always true. -/
def simpleAdvance (chunk_end : Nat) (overlap : Nat) : Int :=
  let p : Int := (chunk_end : Int) - (overlap : Int)
  if p ≤ p then (chunk_end : Int) else p

/-- The chunk-emission block of one `SimpleChunker.chunk_text` iteration
(lines 101–132): strip the window; if splitting on newlines and not at the
end of the text, emit the stripped interior lines separately and then the
stripped last line; otherwise emit the stripped window. -/
def emitStep (cfg : ChunkConfig) (text : Str) (meta : μ) (pos e : Nat)
    (st : ChunkAcc μ) : ChunkAcc μ :=
  let ct := pyStrip (pySlice text pos e)
  if ct ≠ [] then
    if cfg.split_on_newline ∧ e < text.length then
      let lines := splitNl ct
      let st1 := lines.dropLast.foldl (fun acc l =>
        let l2 := pyStrip l
        if l2 ≠ [] then pushFrom text meta pos acc l2 else acc) st
      let ct2 := pyStrip (lines.getLastD [])
      if ct2 ≠ [] then pushFrom text meta pos st1 ct2 else st1
    else pushFrom text meta pos st ct
  else st

/-- The `while current_pos < len(text)` loop of `SimpleChunker.chunk_text`,
with fuel (the loop advances the cursor by at least one whenever
`chunk_size ≥ 1`, so `text.length + 1` fuel is enough; with `chunk_size = 0`
the Python loop does not terminate). -/
def simpleLoop (cfg : ChunkConfig) (text : Str) (meta : μ) :
    Nat → Nat → ChunkAcc μ → List (TextChunk Str μ)
  | 0, _, st => st.1
  | fuel + 1, pos, st =>
    if pos < text.length then
      let e := simpleEnd cfg text pos
      let st2 := emitStep cfg text meta pos e st
      simpleLoop cfg text meta fuel (simpleAdvance e cfg.chunk_overlap).toNat st2
    else st.1

namespace SimpleChunker

/-- Model of `SimpleChunker.chunk_text`. -/
def chunk_text (cfg : ChunkConfig) (text : Str) (meta : μ) : List (TextChunk Str μ) :=
  if text = [] then [] else simpleLoop cfg text meta (text.length + 1) 0 ([], 0)

end SimpleChunker

/-! ### RecursiveChunker (`chunking.py` lines 205–326) -/

/-- The recursive chunker's running buffer: emitted chunks plus the
`current_chunk` list and its `current_length`. -/
structure RBuf (μ : Type) where
  st : ChunkAcc μ
  cur : List Str
  curLen : Nat

/-- Flush `current_chunk` as one chunk joined with newlines (the three
identical flush blocks of `RecursiveChunker.chunk_text`). -/
def flushCur (text : Str) (meta : μ) (r : RBuf μ) : RBuf μ :=
  ⟨pushChunk text meta r.st (joinNl r.cur), [], 0⟩

/-- Processing of one sentence (lines 278–308): an oversized sentence is
hard-split at fixed offsets; otherwise it is buffered, flushing once the
buffered length exceeds `chunk_size`. -/
def procSentence (cfg : ChunkConfig) (text : Str) (meta : μ) (r : RBuf μ) (sent : Str) : RBuf μ :=
  if cfg.chunk_size < sent.length then
    ⟨(pySlices (sent.length + 1) sent cfg.chunk_size).foldl (pushChunk text meta) r.st,
      r.cur, r.curLen⟩
  else
    let r2 : RBuf μ := ⟨r.st, r.cur ++ [sent], r.curLen + sent.length⟩
    if cfg.chunk_size < r2.curLen then flushCur text meta r2 else r2

/-- Processing of one subsection (single-newline piece, lines 254–311). -/
def procSubsection (cfg : ChunkConfig) (text : Str) (meta : μ) (r : RBuf μ) (sub0 : Str) : RBuf μ :=
  let sub := pyStrip sub0
  if sub = [] then r
  else
    let r1 := if cfg.chunk_size < r.curLen + sub.length ∧ r.cur ≠ [] then flushCur text meta r else r
    if cfg.chunk_size < sub.length then (sentSplit sub).foldl (procSentence cfg text meta) r1
    else ⟨r1.st, r1.cur ++ [sub], r1.curLen + sub.length⟩

/-- Processing of one major section (blank-line separated, lines 232–324). -/
def procSection (cfg : ChunkConfig) (text : Str) (meta : μ) (st : ChunkAcc μ) (sec0 : Str) :
    ChunkAcc μ :=
  let sec := pyStrip sec0
  if sec = [] then st
  else if sec.length ≤ cfg.chunk_size then pushChunk text meta st sec
  else
    let r := (splitNl sec).foldl (procSubsection cfg text meta) ⟨st, [], 0⟩
    if r.cur ≠ [] then (flushCur text meta r).st else r.st

namespace RecursiveChunker

/-- Model of `RecursiveChunker.chunk_text`. -/
def chunk_text (cfg : ChunkConfig) (text : Str) (meta : μ) : List (TextChunk Str μ) :=
  if text = [] then []
  else ((majorSplit text).foldl (procSection cfg text meta) ([], 0)).1

end RecursiveChunker

/-! ### Vector arithmetic (NumPy on float64, modelled over ℝ) -/

/-- Dot product of two vectors (`np.dot`; NumPy truncates to the shorter
length only in the 1-d zip sense used here — callers keep dimensions equal). -/
noncomputable def dot (a b : List ℝ) : ℝ :=
  (List.zipWith (fun x y => x * y) a b).sum

/-- Sum of squares of a vector. -/
noncomputable def l2normSq (v : List ℝ) : ℝ :=
  dot v v

/-- Euclidean norm, `np.linalg.norm`. -/
noncomputable def l2norm (v : List ℝ) : ℝ :=
  Real.sqrt (l2normSq v)

/-- Normalization as done by `MemoryStore.add_texts` (lines 61–64): divide by
the norm only when it is positive. -/
noncomputable def msNormalize (v : List ℝ) : List ℝ :=
  if 0 < l2norm v then v.map (fun x => x / l2norm v) else v

/-- Normalization without the zero guard, as `MemoryStore.search` line 97 and
`RetrievalStrategy._filter_duplicates` line 96 do (`v / np.linalg.norm(v)`). -/
noncomputable def rawNormalize (v : List ℝ) : List ℝ :=
  v.map (fun x => x / l2norm v)

/-! ### MemoryStore (`vector_store/memory_store.py`) -/

/-- Metadata mappings, modelled as association lists of string pairs. -/
abbrev Md := List (String × String)

/-- One stored record: the three dicts `_texts`, `_embeddings`, `_metadata`
share their uuid keys, so they are modelled as one association list in
insertion order. -/
structure VRecord where
  id : String
  text : String
  emb : List ℝ
  meta : Md

/-- The in-memory store state. -/
structure MemoryStore where
  records : List VRecord

/-- Metadata selection of `add_texts` lines 68–71:
`metadata[i]` if `metadata` is truthy and `i < len(metadata)`, else `{}`. -/
def mdAt (metadata : Option (List Md)) (i : Nat) : Md :=
  match metadata with
  | some ms => if ms ≠ [] ∧ i < ms.length then ms.getD i [] else []
  | none => []

/-- Python dict assignment `d[id] = v`: replace in place if the key exists,
else append. -/
def msUpsert (recs : List VRecord) (r : VRecord) : List VRecord :=
  if recs.any (fun x => x.id == r.id) then
    recs.map (fun x => if x.id == r.id then r else x)
  else recs ++ [r]

/-- The `for i, (text, embedding) in enumerate(zip(texts, embeddings))` loop
of `MemoryStore.add_texts`; an out-of-range `ids[i]` raises `IndexError`,
which the surrounding `except` re-raises as a wrapped `Exception`. -/
noncomputable def addLoop (ids : List String) (metadata : Option (List Md)) :
    List VRecord → Nat → List (String × List ℝ) → Except String (List VRecord)
  | recs, _, [] => .ok recs
  | recs, i, (t, e) :: rest =>
    if h : i < ids.length then
      addLoop ids metadata
        (msUpsert recs ⟨ids.get ⟨i, h⟩, t, msNormalize e, mdAt metadata i⟩) (i + 1) rest
    else .error ("Failed to add texts to memory store: list index out of range")

/-- Model of `MemoryStore.add_texts`.  `gen` is the uuid4 stream consumed when
`ids` is omitted; the returned id list is the full generated/provided list. -/
noncomputable def MemoryStore.add_texts (st : MemoryStore) (texts : List String)
    (embeddings : List (List ℝ)) (metadata : Option (List Md))
    (ids0 : Option (List String)) (gen : List String) :
    Except String (MemoryStore × List String) :=
  let ids := match ids0 with
    | none => gen.take texts.length
    | some l => l
  match addLoop ids metadata st.records 0 (texts.zip embeddings) with
  | .ok recs => .ok (⟨recs⟩, ids)
  | .error e => .error e

/-- Metadata filter of `MemoryStore.search` lines 102–106: a falsy filter
(absent or empty) keeps everything; otherwise every key/value pair must match
exactly. -/
def msFilterOk (filter : Option Md) (md : Md) : Bool :=
  match filter with
  | none => true
  | some fs => if fs = [] then true else fs.all (fun kv => md.lookup kv.1 == some kv.2)

/-- Per-record score of `MemoryStore.search` lines 108–114: cosine distance
`1 - dot`, Euclidean distance, or negated dot product. -/
noncomputable def msScore (metric : String) (q e : List ℝ) : ℝ :=
  if metric = "cosine" then 1 - dot q e
  else if metric = "euclidean" then l2norm (List.zipWith (fun x y => x - y) q e)
  else -(dot q e)

/-- A search result (`VectorSearchResult`; the `datetime.now()` timestamp is
a side effect outside the model). -/
structure VectorSearchResult where
  id : String
  text : String
  meta : Md
  score : ℝ
  emb : List ℝ

/-- Model of `MemoryStore.search`: normalize the query (no zero guard), score
every record passing the filter, sort ascending by score (Python's stable
sort), and return the first `k`. -/
noncomputable def msSearch (st : MemoryStore) (metric : String) (q : List ℝ) (k : Nat)
    (filter : Option Md) : List VectorSearchResult :=
  let qn := rawNormalize q
  let results := (st.records.filter (fun r => msFilterOk filter r.meta)).map
    (fun r => VectorSearchResult.mk r.id r.text r.meta (msScore metric qn r.emb) r.emb)
  (List.insertionSort (fun a b => a.score ≤ b.score) results).take k

/-! ### MemoryVectorStore (`vector_store/memory.py`) -/

/-- State of `MemoryVectorStore`: three parallel lists. -/
structure MVStore where
  texts : List String
  embeddings : List (List ℝ)
  metadatas : List Md
deriving Inhabited

/-- Model of `MemoryVectorStore.add_text`; `provider` models
`embeddings_provider.get_embeddings_sync([text])[0]`. -/
def mvAddText (provider : String → List ℝ) (st : MVStore) (text : String)
    (metadata : Option Md) (embedding : Option (List ℝ)) : MVStore :=
  let emb := match embedding with
    | none => provider text
    | some e => e
  ⟨st.texts ++ [text], st.embeddings ++ [emb], st.metadatas ++ [metadata.getD []]⟩

/-- Model of `MemoryVectorStore.add_texts`: the three lists are extended with
no length validation whatsoever. -/
def mvAddTexts (provider : List String → List (List ℝ)) (st : MVStore) (texts : List String)
    (metadatas : Option (List Md)) (embeddings : Option (List (List ℝ))) : MVStore :=
  let embs := match embeddings with
    | none => provider texts
    | some l => l
  let mds := match metadatas with
    | none => texts.map (fun _ => [])
    | some l => l
  ⟨st.texts ++ texts, st.embeddings ++ embs, st.metadatas ++ mds⟩

/-- A search result of the second store (`SearchResult` of
`vector_store/base.py`): a `TextChunk` plus a score. -/
structure SearchResult where
  chunk : TextChunk String Md
  score : ℝ

/-- The truthy metadata filter of `similarity_search` lines 94–97: a falsy
`filters` (absent or empty) keeps everything, otherwise all key/value pairs
must match the candidate's metadata exactly. -/
def mvFilterOk (filters : Option Md) (md : Md) : Bool :=
  match filters with
  | none => true
  | some fs => if fs = [] then true else fs.all (fun kv => md.lookup kv.1 == some kv.2)

/-- The candidate-collection loop of `similarity_search` lines 91–101:
enumerate similarities, apply the (truthy) metadata filter, and keep scores
at or above `min_score`.  Looking up `metadatas[i]` past the end would raise
`IndexError` in Python; the callers proved about keep the lists aligned. -/
noncomputable def collectSims (filters : Option Md) (metadatas : List Md) (min_score : ℝ) :
    Nat → List ℝ → List (Nat × ℝ)
  | _, [] => []
  | i, s :: rest =>
    if mvFilterOk filters (metadatas.getD i []) ∧ min_score ≤ s then
      (i, s) :: collectSims filters metadatas min_score (i + 1) rest
    else collectSims filters metadatas min_score (i + 1) rest

/-- The result-building loop of `similarity_search` lines 110–119: the chunk
of the `i`-th returned result gets `start_char = 0`,
`end_char = len(texts[idx])`, the store's metadata entry, and `chunk_index`
equal to its position in the ranked list. -/
def buildResults (texts : List String) (metadatas : List Md) :
    Nat → List (Nat × ℝ) → List SearchResult
  | _, [] => []
  | i, (idx, score) :: rest =>
    ⟨⟨texts.getD idx "", metadatas.getD idx [], 0, ((texts.getD idx "").length : Int), i⟩, score⟩
      :: buildResults texts metadatas (i + 1) rest

/-- Model of `MemoryVectorStore.similarity_search`: dot-product similarities,
filter by score floor and metadata, stable sort descending, truncate to `k`,
and rebuild `TextChunk`s that forget the original positions. -/
noncomputable def MVStore.similarity_search (st : MVStore) (q : List ℝ) (k : Nat)
    (min_score : ℝ) (filters : Option Md) : List SearchResult :=
  if st.embeddings = [] then []
  else
    let sims := st.embeddings.map (fun e => dot e q)
    let results := collectSims filters st.metadatas min_score 0 sims
    let sorted := List.insertionSort (fun a b => b.2 ≤ a.2) results
    buildResults st.texts st.metadatas 0 (sorted.take k)

/-! ### Retrieval (`rag/retrieval.py`) -/

/-- Post-validation retrieval configuration (`RetrievalConfig` dataclass). -/
structure RetrievalConfig where
  top_k : Nat
  min_similarity : ℝ
  rerank_results : Bool
  filter_duplicates : Bool
  duplicate_threshold : ℝ

/-- Construction of `RetrievalConfig` with its `__post_init__` validation. -/
noncomputable def mkRetrievalConfig (top_k : Int) (min_similarity : ℝ)
    (rerank_results filter_duplicates : Bool) (duplicate_threshold : ℝ) :
    Except String RetrievalConfig :=
  if top_k ≤ 0 then .error ("top_k must be positive")
  else if ¬(0 ≤ min_similarity ∧ min_similarity ≤ 1) then
    .error ("min_similarity must be between 0 and 1")
  else if ¬(0 ≤ duplicate_threshold ∧ duplicate_threshold ≤ 1) then
    .error ("duplicate_threshold must be between 0 and 1")
  else .ok ⟨top_k.toNat, min_similarity, rerank_results, filter_duplicates, duplicate_threshold⟩

/-- A retrieved chunk with similarity and 1-based rank. -/
structure RetrievedChunk where
  chunk : TextChunk String Md
  similarity : ℝ
  rank : Nat

/-- The candidate loop of `RetrievalStrategy._filter_duplicates` lines 92–109:
embed the candidate's text (`embed` models
`vector_store.get_embedding`), normalize it without a zero guard, drop the
candidate when its dot product with a previously accepted normalized
embedding strictly exceeds the threshold, else accept it and remember the
embedding. -/
noncomputable def filterDupsLoop (embed : String → List ℝ) (threshold : ℝ) :
    List RetrievedChunk → List (List ℝ) → List RetrievedChunk
  | [], _ => []
  | c :: rest, seen =>
    let ce := rawNormalize (embed c.chunk.text)
    if seen.any (fun se => decide (threshold < dot ce se)) then
      filterDupsLoop embed threshold rest seen
    else c :: filterDupsLoop embed threshold rest (seen ++ [ce])

/-- Model of `RetrievalStrategy._filter_duplicates`. -/
noncomputable def filter_duplicates (embed : String → List ℝ) (threshold : ℝ)
    (chunks : List RetrievedChunk) : List RetrievedChunk :=
  if chunks.isEmpty then chunks else filterDupsLoop embed threshold chunks []

/-! ### Invariants used in the statements and proofs -/

/-- The chunk list carries indices `0, 1, ..., n-1` in order. -/
def IdxOk (l : List (TextChunk Str μ)) : Prop :=
  l.map TextChunk.chunk_index = List.range l.length

/-- Accumulator invariant: indices are contiguous from 0 and the counter
equals the number of chunks emitted so far. -/
def IdxInv (st : ChunkAcc μ) : Prop :=
  IdxOk st.1 ∧ st.2 = st.1.length

/-- Every chunk text is at most `S` characters. -/
def SzOk (S : Nat) (l : List (TextChunk Str μ)) : Prop :=
  ∀ c ∈ l, c.text.length ≤ S

/-- The chunk's offsets are genuine positions into `text`: `start_char` is a
natural index, `end_char = start_char + len`, both within bounds, and the
slice of `text` there equals the chunk's text. -/
def GoodOffsets (text : Str) (c : TextChunk Str μ) : Prop :=
  ∃ j : Nat, c.start_char = (j : Int) ∧ c.end_char = (j : Int) + (c.text.length : Int) ∧
    j + c.text.length ≤ text.length ∧ (text.drop j).take c.text.length = c.text

/-- Every chunk of the list has genuine offsets into `text`. -/
def OffOk (text : Str) (l : List (TextChunk Str μ)) : Prop :=
  ∀ c ∈ l, GoodOffsets text c

/-- Every embedding stored in the `MemoryStore` has unit L2 norm. -/
def UnitNorm (st : MemoryStore) : Prop :=
  ∀ r ∈ st.records, l2norm r.emb = 1

/-! ### Helper lemmas: strings and scans -/

theorem pyStrip_prefix_dropWhile (s : Str) : pyStrip s <+: s.dropWhile pySpace := by
  have h := List.dropWhile_suffix (l := (s.dropWhile pySpace).reverse) pySpace
  have h2 : (((s.dropWhile pySpace).reverse.dropWhile pySpace).reverse).reverse <:+
      (s.dropWhile pySpace).reverse := by
    simpa using h
  exact List.reverse_suffix.mp h2

theorem pyStrip_substring (s : Str) : pyStrip s <:+: s :=
  (pyStrip_prefix_dropWhile s).isInfix.trans (List.dropWhile_suffix pySpace).isInfix

theorem pyStrip_length_le (s : Str) : (pyStrip s).length ≤ s.length :=
  (pyStrip_substring s).length_le

theorem splitNl_spec (s : Str) :
    splitNl s ≠ [] ∧ (splitNl s).headD [] <+: s ∧ ∀ p ∈ splitNl s, p <:+: s := by
  induction s with
  | nil =>
    refine ⟨by simp [splitNl], by simp [splitNl], ?_⟩
    intro p hp
    simp [splitNl] at hp
    simp [hp]
  | cons c rest ih =>
    obtain ⟨ih1, ih2, ih3⟩ := ih
    by_cases hc : c = '\n'
    · refine ⟨by simp [splitNl, hc], by simp [splitNl, hc], ?_⟩
      intro p hp
      simp only [splitNl, hc, if_pos rfl] at hp
      rcases List.mem_cons.mp hp with h | h
      · simp [h]
      · exact List.infix_cons (ih3 p h)
    · cases hsp : splitNl rest with
      | nil => exact absurd hsp ih1
      | cons q qs =>
        refine ⟨by simp [splitNl, hc, hsp], ?_, ?_⟩
        · have hq : q <+: rest := by
            have := ih2
            rw [hsp] at this
            simpa using this
          simp only [splitNl, if_neg hc, hsp, List.headD_cons]
          exact List.cons_prefix_cons.mpr ⟨rfl, hq⟩
        · intro p hp
          simp only [splitNl, if_neg hc, hsp] at hp
          rcases List.mem_cons.mp hp with h | h
          · subst h
            have hq : q <+: rest := by
              have := ih2
              rw [hsp] at this
              simpa using this
            exact (List.cons_prefix_cons.mpr ⟨rfl, hq⟩).isInfix
          · have : p <:+: rest := ih3 p (by rw [hsp]; exact List.mem_cons_of_mem _ h)
            exact List.infix_cons this

theorem splitNl_ne_nil (s : Str) : splitNl s ≠ [] :=
  (splitNl_spec s).1

theorem splitNl_mem_substring {s p : Str} (hp : p ∈ splitNl s) : p <:+: s :=
  (splitNl_spec s).2.2 p hp

theorem getLastD_mem_cons {α : Type} : ∀ (l : List α) (a : α), l.getLastD a ∈ a :: l := by
  intro l
  induction l with
  | nil => intro a; simp [List.getLastD]
  | cons b t ih =>
    intro a
    rw [List.getLastD_cons]
    exact List.mem_cons_of_mem a (ih b)

theorem getLastD_mem {α : Type} {l : List α} (h : l ≠ []) (d : α) : l.getLastD d ∈ l := by
  cases l with
  | nil => exact absurd rfl h
  | cons a t =>
    rw [List.getLastD_cons]
    exact getLastD_mem_cons t a

theorem pySlice_prefix_drop (t : Str) (a b : Nat) : pySlice t a b <+: t.drop a :=
  List.take_prefix _ _

theorem pySlice_length_le (t : Str) (a b : Nat) : (pySlice t a b).length ≤ b - a := by
  simp only [pySlice, List.length_take]
  omega

theorem nlPositions_lt {s : Str} {i p : Nat} (hp : p ∈ nlPositions s i) : p < i + s.length := by
  induction s generalizing i with
  | nil => simp [nlPositions] at hp
  | cons c rest ih =>
    by_cases hc : c = '\n'
    · simp only [nlPositions, if_pos hc] at hp
      rcases List.mem_cons.mp hp with h | h
      · subst h; simp
      · have := ih h
        simp only [List.length_cons]
        omega
    · simp only [nlPositions, if_neg hc] at hp
      have := ih hp
      simp only [List.length_cons]
      omega

theorem sentMatchEnds_le {fuel : Nat} {s : Str} {i p : Nat}
    (hp : p ∈ sentMatchEnds fuel s i) : p ≤ i + s.length := by
  induction fuel generalizing s i with
  | zero => simp [sentMatchEnds] at hp
  | succ fuel ih =>
    cases s with
    | nil => simp [sentMatchEnds] at hp
    | cons c rest =>
      by_cases hc : sentEndChar c = true
      · simp only [sentMatchEnds, if_pos hc] at hp
        have hrun : (rest.takeWhile sentCloser).length ≤ rest.length :=
          (List.takeWhile_sublist sentCloser).length_le
        rcases List.mem_cons.mp hp with h | h
        · subst h
          simp only [List.length_cons]
          omega
        · have h2 := ih h
          have h3 : (rest.drop (rest.takeWhile sentCloser).length).length =
              rest.length - (rest.takeWhile sentCloser).length := by
            simp [List.length_drop]
          rw [h3] at h2
          simp only [List.length_cons]
          omega
      · simp only [sentMatchEnds, if_neg hc] at hp
        have := ih hp
        simp only [List.length_cons]
        omega

theorem find?_getD_le {l : List Nat} {p : Nat → Bool} {e : Nat}
    (h : ∀ x ∈ l, p x = true → x ≤ e) : (l.find? p).getD e ≤ e := by
  cases hf : l.find? p with
  | none => simp
  | some x =>
    rw [Option.getD_some]
    exact h x (List.mem_of_find?_eq_some hf) (List.find?_some hf)

theorem findNewlineBoundary_le (text : Str) (s e minSz : Nat) :
    findNewlineBoundary text s e minSz ≤ e := by
  unfold findNewlineBoundary
  apply find?_getD_le
  intro x hx _
  have hmem2 := (List.mem_filter.mp hx).1
  obtain ⟨r, hr, hrp⟩ := List.mem_map.mp hmem2
  have hlt : r < 0 + (pySlice text s e).length := nlPositions_lt hr
  have hlen : (pySlice text s e).length ≤ e - s := pySlice_length_le text s e
  omega

theorem findSentenceBoundary_le (text : Str) (s e minSz : Nat) :
    findSentenceBoundary text s e minSz ≤ e := by
  unfold findSentenceBoundary
  apply find?_getD_le
  intro x hx hpx
  rw [decide_eq_true_eq] at hpx
  exact hpx

theorem simpleEnd_le (cfg : ChunkConfig) (text : Str) (pos : Nat) :
    simpleEnd cfg text pos ≤ pos + cfg.chunk_size := by
  have h0 : min (pos + cfg.chunk_size) text.length ≤ pos + cfg.chunk_size := min_le_left _ _
  have hnl := findNewlineBoundary_le text pos (min (pos + cfg.chunk_size) text.length)
    cfg.min_chunk_size
  have hs0 := findSentenceBoundary_le text pos (min (pos + cfg.chunk_size) text.length)
    cfg.min_chunk_size
  have hsp := findSentenceBoundary_le text pos
    (findNewlineBoundary text pos (min (pos + cfg.chunk_size) text.length) cfg.min_chunk_size)
    cfg.min_chunk_size
  unfold simpleEnd
  dsimp only
  split_ifs <;> omega

theorem pyFindAux_found {s sub : Str} {start : Nat}
    (h : ∃ m, start ≤ m ∧ m ≤ s.length ∧ sub <+: s.drop m) :
    ∃ j, pyFindAux s sub start = some j ∧ start ≤ j ∧ j ≤ s.length ∧ sub <+: s.drop j := by
  obtain ⟨m, hm1, hm2, hm3⟩ := h
  have hsome : ((List.range (s.length + 1)).find?
      (fun i => decide (start ≤ i) && sub.isPrefixOf (s.drop i))).isSome = true := by
    rw [List.find?_isSome]
    refine ⟨m, List.mem_range.mpr (by omega), ?_⟩
    simp only [Bool.and_eq_true, decide_eq_true_eq]
    exact ⟨hm1, List.isPrefixOf_iff_prefix.mpr hm3⟩
  obtain ⟨j, hj⟩ := Option.isSome_iff_exists.mp hsome
  have hpred := List.find?_some hj
  simp only [Bool.and_eq_true, decide_eq_true_eq] at hpred
  have hjmem := List.mem_of_find?_eq_some hj
  refine ⟨j, ?_, hpred.1, ?_, List.isPrefixOf_iff_prefix.mp hpred.2⟩
  · simpa [pyFindAux] using hj
  · have := List.mem_range.mp hjmem
    omega

theorem exists_occ_of_infix_drop {sub text : Str} {pos : Nat}
    (h : sub <:+: text.drop pos) (hp : pos ≤ text.length) :
    ∃ m, pos ≤ m ∧ m ≤ text.length ∧ sub <+: text.drop m := by
  obtain ⟨u, v, huv⟩ := h
  have hlen : u.length + (sub.length + v.length) = text.length - pos := by
    have := congrArg List.length huv
    simpa [List.length_drop] using this
  refine ⟨pos + u.length, by omega, by omega, ?_⟩
  have h1 : text.drop (pos + u.length) = (text.drop pos).drop u.length := by
    rw [List.drop_drop, Nat.add_comm]
  have h2 : (text.drop pos).drop u.length = sub ++ v := by
    rw [← huv, List.append_assoc, List.drop_left]
  rw [h1, h2]
  exact List.prefix_append sub v

/-! ### Helper lemmas: chunk-index invariant (claim C6) -/

theorem foldl_inv {α β : Type _} {P : β → Prop} {f : β → α → β}
    (hf : ∀ b a, P b → P (f b a)) : ∀ (l : List α) (b : β), P b → P (l.foldl f b) := by
  intro l
  induction l with
  | nil => intro b hb; exact hb
  | cons a t ih => intro b hb; exact ih (f b a) (hf b a hb)

theorem IdxInv.push {μ : Type} {st : ChunkAcc μ} (h : IdxInv st) (c : TextChunk Str μ)
    (hc : c.chunk_index = st.2) : IdxInv (st.1 ++ [c], st.2 + 1) := by
  obtain ⟨h1, h2⟩ := h
  constructor
  · unfold IdxOk at *
    rw [List.map_append, h1, List.length_append]
    simp [hc, h2, List.range_succ]
  · simp [h2]

theorem pushFrom_idx {μ : Type} (text : Str) (meta : μ) (pos : Nat) (ct : Str)
    {st : ChunkAcc μ} (h : IdxInv st) : IdxInv (pushFrom text meta pos st ct) :=
  h.push _ rfl

theorem pushChunk_idx {μ : Type} (text : Str) (meta : μ) (ct : Str)
    {st : ChunkAcc μ} (h : IdxInv st) : IdxInv (pushChunk text meta st ct) :=
  pushFrom_idx text meta 0 ct h

theorem emitStep_idx {μ : Type} (cfg : ChunkConfig) (text : Str) (meta : μ) (pos e : Nat)
    {st : ChunkAcc μ} (h : IdxInv st) : IdxInv (emitStep cfg text meta pos e st) := by
  unfold emitStep
  dsimp only
  have hfold : ∀ (lines : List Str) (st0 : ChunkAcc μ), IdxInv st0 →
      IdxInv (lines.foldl (fun acc l =>
        let l2 := pyStrip l
        if l2 ≠ [] then pushFrom text meta pos acc l2 else acc) st0) := by
    intro lines st0 h0
    refine foldl_inv ?_ lines st0 h0
    intro b a hb
    dsimp only
    split
    · exact pushFrom_idx text meta pos _ hb
    · exact hb
  split_ifs with h1 h2 h3
  · exact pushFrom_idx text meta pos _ (hfold _ st h)
  · exact hfold _ st h
  · exact pushFrom_idx text meta pos _ h
  · exact h

theorem simpleLoop_idx {μ : Type} (cfg : ChunkConfig) (text : Str) (meta : μ) :
    ∀ (fuel pos : Nat) (st : ChunkAcc μ), IdxInv st →
      IdxOk (simpleLoop cfg text meta fuel pos st) := by
  intro fuel
  induction fuel with
  | zero => intro pos st h; exact h.1
  | succ fuel ih =>
    intro pos st h
    unfold simpleLoop
    dsimp only
    split
    · exact ih _ _ (emitStep_idx cfg text meta _ _ h)
    · exact h.1

theorem flushCur_idx {μ : Type} (text : Str) (meta : μ) {r : RBuf μ} (h : IdxInv r.st) :
    IdxInv (flushCur text meta r).st :=
  pushChunk_idx text meta _ h

theorem procSentence_idx {μ : Type} (cfg : ChunkConfig) (text : Str) (meta : μ)
    {r : RBuf μ} (h : IdxInv r.st) (sent : Str) :
    IdxInv (procSentence cfg text meta r sent).st := by
  unfold procSentence
  dsimp only
  split_ifs with h1 h2
  · exact foldl_inv (fun b a hb => pushChunk_idx text meta a hb) _ _ h
  · exact flushCur_idx text meta h
  · exact h

theorem procSentFold_idx {μ : Type} (cfg : ChunkConfig) (text : Str) (meta : μ) :
    ∀ (l : List Str) (r : RBuf μ), IdxInv r.st →
      IdxInv (l.foldl (procSentence cfg text meta) r).st := by
  intro l
  induction l with
  | nil => intro r hr; exact hr
  | cons a t ih => intro r hr; exact ih _ (procSentence_idx cfg text meta hr a)

theorem procSubsection_idx {μ : Type} (cfg : ChunkConfig) (text : Str) (meta : μ)
    {r : RBuf μ} (h : IdxInv r.st) (sub0 : Str) :
    IdxInv (procSubsection cfg text meta r sub0).st := by
  unfold procSubsection
  dsimp only
  split_ifs with h1 h2 h3 <;>
    first
      | exact h
      | exact flushCur_idx text meta h
      | exact procSentFold_idx cfg text meta _ _ h
      | exact procSentFold_idx cfg text meta _ _ (flushCur_idx text meta h)

theorem procSection_idx {μ : Type} (cfg : ChunkConfig) (text : Str) (meta : μ)
    {st : ChunkAcc μ} (h : IdxInv st) (sec0 : Str) :
    IdxInv (procSection cfg text meta st sec0) := by
  unfold procSection
  dsimp only
  have hfold : IdxInv ((splitNl (pyStrip sec0)).foldl (procSubsection cfg text meta)
      ⟨st, [], 0⟩ : RBuf μ).st := by
    have : ∀ (l : List Str) (r : RBuf μ), IdxInv r.st →
        IdxInv (l.foldl (procSubsection cfg text meta) r).st := by
      intro l
      induction l with
      | nil => intro r hr; exact hr
      | cons a t ih => intro r hr; exact ih _ (procSubsection_idx cfg text meta hr a)
    exact this _ ⟨st, [], 0⟩ h
  split_ifs with h1 h2 h3
  · exact h
  · exact pushChunk_idx text meta _ h
  · exact flushCur_idx text meta hfold
  · exact hfold

theorem procSecFold_idx {μ : Type} (cfg : ChunkConfig) (text : Str) (meta : μ) :
    ∀ (l : List Str) (st : ChunkAcc μ), IdxInv st →
      IdxInv (l.foldl (procSection cfg text meta) st) := by
  intro l
  induction l with
  | nil => intro st h; exact h
  | cons a t ih => intro st h; exact ih _ (procSection_idx cfg text meta h a)

/-! ### Helper lemmas: chunk-size bound (claim C1) -/

theorem foldl_inv_mem {α β : Type _} {P : β → Prop} {f : β → α → β} :
    ∀ (l : List α), (∀ b a, a ∈ l → P b → P (f b a)) → ∀ b, P b → P (l.foldl f b) := by
  intro l
  induction l with
  | nil => intro _ b hb; exact hb
  | cons a t ih =>
    intro hf b hb
    exact ih (fun b x hx hb => hf b x (List.mem_cons_of_mem _ hx) hb) _
      (hf b a (List.mem_cons_self a t) hb)

theorem SzOk_push {μ : Type} {S : Nat} {st : ChunkAcc μ} (h : SzOk S st.1)
    (text : Str) (meta : μ) (pos : Nat) {ct : Str} (hct : ct.length ≤ S) :
    SzOk S (pushFrom text meta pos st ct).1 := by
  intro c hc
  unfold pushFrom at hc
  rcases List.mem_append.mp hc with h1 | h1
  · exact h c h1
  · have : c = ⟨ct, meta, pyFind text ct pos, pyFind text ct pos + (ct.length : Int), st.2⟩ := by
      simpa using h1
    subst this
    exact hct

theorem emitStep_sz {μ : Type} (cfg : ChunkConfig) (text : Str) (meta : μ) (pos e : Nat)
    (he : e ≤ pos + cfg.chunk_size) {st : ChunkAcc μ} (h : SzOk cfg.chunk_size st.1) :
    SzOk cfg.chunk_size (emitStep cfg text meta pos e st).1 := by
  have hct : (pyStrip (pySlice text pos e)).length ≤ cfg.chunk_size := by
    have hl1 := pyStrip_length_le (pySlice text pos e)
    have hl2 := pySlice_length_le text pos e
    omega
  have hline : ∀ l ∈ splitNl (pyStrip (pySlice text pos e)),
      (pyStrip l).length ≤ cfg.chunk_size := by
    intro l hl
    have := (splitNl_mem_substring hl).length_le
    have := pyStrip_length_le l
    omega
  unfold emitStep
  dsimp only
  split_ifs with h1 h2 h3
  · refine SzOk_push ?_ text meta pos
      (hline _ (getLastD_mem (splitNl_ne_nil _) _))
    refine foldl_inv_mem (P := fun b => SzOk cfg.chunk_size b.1) _ ?_ st h
    intro b a ha hb
    dsimp only
    split
    · exact SzOk_push hb text meta pos
        (hline a ((List.dropLast_sublist _).subset ha))
    · exact hb
  · refine foldl_inv_mem (P := fun b => SzOk cfg.chunk_size b.1) _ ?_ st h
    intro b a ha hb
    dsimp only
    split
    · exact SzOk_push hb text meta pos
        (hline a ((List.dropLast_sublist _).subset ha))
    · exact hb
  · exact SzOk_push h text meta pos hct
  · exact h

theorem simpleLoop_sz {μ : Type} (cfg : ChunkConfig) (text : Str) (meta : μ) :
    ∀ (fuel pos : Nat) (st : ChunkAcc μ), SzOk cfg.chunk_size st.1 →
      SzOk cfg.chunk_size (simpleLoop cfg text meta fuel pos st) := by
  intro fuel
  induction fuel with
  | zero => intro pos st h; exact h
  | succ fuel ih =>
    intro pos st h
    unfold simpleLoop
    dsimp only
    split
    · exact ih _ _ (emitStep_sz cfg text meta pos _ (simpleEnd_le cfg text pos) h)
    · exact h

/-! ### Claim theorems: C6 and C1 -/

/-- C6: for every input text and metadata, the chunks returned by a single
`chunk_text` call of either strategy carry `chunk_index` values exactly
`0, 1, ..., n-1` in list order. -/
theorem chunk_indices_contiguous (μ : Type) (cfg : ChunkConfig) (text : Str) (meta : μ) :
    (SimpleChunker.chunk_text cfg text meta).map TextChunk.chunk_index =
      List.range (SimpleChunker.chunk_text cfg text meta).length ∧
    (RecursiveChunker.chunk_text cfg text meta).map TextChunk.chunk_index =
      List.range (RecursiveChunker.chunk_text cfg text meta).length := by
  constructor
  · unfold SimpleChunker.chunk_text
    split
    · simp
    · exact simpleLoop_idx cfg text meta _ 0 ([], 0) ⟨by simp [IdxOk], rfl⟩
  · unfold RecursiveChunker.chunk_text
    split
    · simp
    · exact (procSecFold_idx cfg text meta _ ([], 0) ⟨by simp [IdxOk], rfl⟩).1

/-- C1 (amended): every chunk produced by `SimpleChunker.chunk_text` has text
of length at most `chunk_size`.  (The original claim also asserted this for
`RecursiveChunker.chunk_text` outside its hard-split path; that part is
refuted by `recursive_chunk_size_counterexample`.) -/
theorem simple_chunk_size_bounded {μ : Type} (cfg : ChunkConfig) (text : Str) (meta : μ)
    (c : TextChunk Str μ) (hc : c ∈ SimpleChunker.chunk_text cfg text meta) :
    c.text.length ≤ cfg.chunk_size := by
  unfold SimpleChunker.chunk_text at hc
  split at hc
  · simp at hc
  · refine simpleLoop_sz cfg text meta _ 0 ([], 0) ?_ c hc
    intro x hx
    simp at hx

/-- Witness for `simple_chunk_size_bounded` at a concrete input. -/
theorem simple_chunk_size_bounded_witness :
    (⟨('a' :: 'b' :: []), (), 0, 2, 0⟩ : TextChunk Str Unit).text.length ≤ 5 :=
  simple_chunk_size_bounded ⟨5, 0, 1, true, true⟩ ('a' :: 'b' :: []) ()
    ⟨('a' :: 'b' :: []), (), 0, 2, 0⟩ (by decide)

/-- C1 counterexample: under the valid configuration
`ChunkConfig(chunk_size=10, chunk_overlap=0, min_chunk_size=1)` the recursive
strategy turns the 14-character text "One. Two. Six." (three sentences, each
of length 4, so the hard-split path is never taken) into a single chunk of
length 14 > 10, refuting the claimed bound. -/
theorem recursive_chunk_size_counterexample :
    mkChunkConfig 10 0 1 true true = .ok ⟨10, 0, 1, true, true⟩ ∧
    (RecursiveChunker.chunk_text ⟨10, 0, 1, true, true⟩ (("One. Two. Six.").toList) ()).map
      (fun c => c.text.length) = [14] ∧ 10 < 14 := by
  refine ⟨by rfl, by decide, by decide⟩

/-! ### Claim C2: the cursor-advance guard -/

/-- C2 (code bug): lines 134–137 of `SimpleChunker.chunk_text` set
`current_pos = chunk_end - chunk_overlap` and then test
`current_pos <= current_pos`, comparing the updated cursor with itself
instead of with the previous position; the guard is therefore always true
and the cursor is always forced to `chunk_end`.  The configured overlap is
never applied: after a chunk ending at 10 with overlap 3 the next cursor is
10, never the 7 the claim describes. -/
theorem simple_advance_never_overlaps :
    (∀ e o : Nat, simpleAdvance e o = (e : Int)) ∧ simpleAdvance 10 3 ≠ (7 : Int) := by
  constructor
  · intro e o
    simp [simpleAdvance]
  · decide

/-! ### Claim C9: chunk offsets -/

theorem pushFrom_off {μ : Type} (text : Str) (meta : μ) {pos : Nat} {ct : Str}
    (hpos : pos ≤ text.length) (hsub : ct <:+: text.drop pos)
    {st : ChunkAcc μ} (h : OffOk text st.1) : OffOk text (pushFrom text meta pos st ct).1 := by
  intro c hc
  unfold pushFrom at hc
  rcases List.mem_append.mp hc with h1 | h1
  · exact h c h1
  · have hceq : c = ⟨ct, meta, pyFind text ct pos,
        pyFind text ct pos + (ct.length : Int), st.2⟩ := by
      simpa using h1
    subst hceq
    obtain ⟨j, hj, hjle, hjlen, hjpre⟩ := pyFindAux_found (exists_occ_of_infix_drop hsub hpos)
    refine ⟨j, ?_, ?_, ?_, ?_⟩
    · show pyFind text ct pos = (j : Int)
      unfold pyFind
      rw [hj]
    · show pyFind text ct pos + _ = _
      unfold pyFind
      rw [hj]
    · show j + ct.length ≤ text.length
      have := hjpre.length_le
      rw [List.length_drop] at this
      omega
    · show (text.drop j).take ct.length = ct
      exact (List.prefix_iff_eq_take.mp hjpre).symm

theorem emitStep_off {μ : Type} (cfg : ChunkConfig) (text : Str) (meta : μ) {pos : Nat}
    (e : Nat) (hpos : pos ≤ text.length) {st : ChunkAcc μ} (h : OffOk text st.1) :
    OffOk text (emitStep cfg text meta pos e st).1 := by
  have hct : pyStrip (pySlice text pos e) <:+: text.drop pos :=
    (pyStrip_substring _).trans (pySlice_prefix_drop text pos e).isInfix
  have hline : ∀ l ∈ splitNl (pyStrip (pySlice text pos e)), pyStrip l <:+: text.drop pos :=
    fun l hl => ((pyStrip_substring l).trans (splitNl_mem_substring hl)).trans hct
  unfold emitStep
  dsimp only
  split_ifs with h1 h2 h3
  · refine pushFrom_off text meta hpos (hline _ (getLastD_mem (splitNl_ne_nil _) _)) ?_
    refine foldl_inv_mem (P := fun b => OffOk text b.1) _ ?_ st h
    intro b a ha hb
    dsimp only
    split
    · exact pushFrom_off text meta hpos (hline a ((List.dropLast_sublist _).subset ha)) hb
    · exact hb
  · refine foldl_inv_mem (P := fun b => OffOk text b.1) _ ?_ st h
    intro b a ha hb
    dsimp only
    split
    · exact pushFrom_off text meta hpos (hline a ((List.dropLast_sublist _).subset ha)) hb
    · exact hb
  · exact pushFrom_off text meta hpos hct h
  · exact h

theorem simpleLoop_off {μ : Type} (cfg : ChunkConfig) (text : Str) (meta : μ) :
    ∀ (fuel pos : Nat) (st : ChunkAcc μ), OffOk text st.1 →
      OffOk text (simpleLoop cfg text meta fuel pos st) := by
  intro fuel
  induction fuel with
  | zero => intro pos st h; exact h
  | succ fuel ih =>
    intro pos st h
    unfold simpleLoop
    dsimp only
    split
    · next hlt => exact ih _ _ (emitStep_off cfg text meta _ (le_of_lt hlt) h)
    · exact h

/-- C9 (amended): every chunk returned by `SimpleChunker.chunk_text` carries
genuine source offsets: `start_char` is a natural position `j`,
`end_char = j + len(text)`, `j + len ≤ len(source)`, and the source slice
`[j, j+len)` equals the chunk text.  (The original claim also covered
`RecursiveChunker.chunk_text`, which is refuted by
`recursive_chunk_offsets_counterexample`.) -/
theorem simple_chunk_offsets_genuine {μ : Type} (cfg : ChunkConfig) (text : Str) (meta : μ)
    (c : TextChunk Str μ) (hc : c ∈ SimpleChunker.chunk_text cfg text meta) :
    ∃ j : Nat, c.start_char = (j : Int) ∧ c.end_char = (j : Int) + (c.text.length : Int) ∧
      j + c.text.length ≤ text.length ∧ (text.drop j).take c.text.length = c.text := by
  unfold SimpleChunker.chunk_text at hc
  split at hc
  · simp at hc
  · refine simpleLoop_off cfg text meta _ 0 ([], 0) ?_ c hc
    intro x hx
    simp at hx

/-- Witness for `simple_chunk_offsets_genuine` at a concrete input. -/
theorem simple_chunk_offsets_genuine_witness :
    ∃ j : Nat,
      ((⟨('a' :: 'b' :: []), (), 0, 2, 0⟩ : TextChunk Str Unit)).start_char = (j : Int) ∧
      ((⟨('a' :: 'b' :: []), (), 0, 2, 0⟩ : TextChunk Str Unit)).end_char =
        (j : Int) + (((⟨('a' :: 'b' :: []), (), 0, 2, 0⟩ : TextChunk Str Unit)).text.length : Int) ∧
      j + ((⟨('a' :: 'b' :: []), (), 0, 2, 0⟩ : TextChunk Str Unit)).text.length ≤
        ('a' :: 'b' :: []).length ∧
      (('a' :: 'b' :: []).drop j).take
          ((⟨('a' :: 'b' :: []), (), 0, 2, 0⟩ : TextChunk Str Unit)).text.length =
        ((⟨('a' :: 'b' :: []), (), 0, 2, 0⟩ : TextChunk Str Unit)).text :=
  simple_chunk_offsets_genuine ⟨5, 0, 1, true, true⟩ ('a' :: 'b' :: []) ()
    ⟨('a' :: 'b' :: []), (), 0, 2, 0⟩ (by decide)

/-- C9 counterexample: with the valid configuration
`ChunkConfig(chunk_size=3, chunk_overlap=0, min_chunk_size=1)` and source
text "a \nb", the recursive chunker emits the joined chunk "a\nb", which is
not a substring of the source, so `text.find` returns `-1` and the chunk's
`start_char` is `-1 < 0` with a bogus `end_char`. -/
theorem recursive_chunk_offsets_counterexample :
    (RecursiveChunker.chunk_text ⟨3, 0, 1, true, true⟩ (("a \nb").toList) ()).map
      (fun c => (c.start_char, c.end_char)) = [(-1, 2)] ∧ (-1 : Int) < 0 := by
  exact ⟨by decide, by decide⟩

/-! ### Claim C7: configuration validation -/

/-- C7: `ChunkConfig` construction succeeds exactly when `chunk_size > 0`,
`0 ≤ chunk_overlap < chunk_size`, and `0 < min_chunk_size ≤ chunk_size`
(in particular the three concrete configurations of the claim all fail);
`RetrievalConfig` construction succeeds exactly when `top_k > 0` and
`min_similarity` and `duplicate_threshold` lie in `[0, 1]`. -/
theorem config_validation :
    (∀ s o m : Int, ∀ sn rs : Bool, (mkChunkConfig s o m sn rs).isOk = true ↔
      (0 < s ∧ 0 ≤ o ∧ o < s ∧ 0 < m ∧ m ≤ s)) ∧
    (mkChunkConfig 0 50 20 true true).isOk = false ∧
    (mkChunkConfig 100 100 20 true true).isOk = false ∧
    (mkChunkConfig 100 50 101 true true).isOk = false ∧
    (∀ k : Int, ∀ x y : ℝ, ∀ rr fd : Bool, (mkRetrievalConfig k x rr fd y).isOk = true ↔
      (0 < k ∧ 0 ≤ x ∧ x ≤ 1 ∧ 0 ≤ y ∧ y ≤ 1)) := by
  refine ⟨?_, by decide, by decide, by decide, ?_⟩
  · intro s o m sn rs
    unfold mkChunkConfig
    split_ifs <;> simp [Except.isOk, Except.toBool] <;> omega
  · intro k x y rr fd
    unfold mkRetrievalConfig
    split_ifs with h1 h2 h3
    all_goals simp only [Except.isOk, Except.toBool, Bool.false_eq_true, false_iff,
      true_iff, iff_true]
    all_goals
      first
        | exact ⟨by omega, h2.1, h2.2, h3.1, h3.2⟩
        | (rintro ⟨hk, hx0, hx1, hy0, hy1⟩
           first
             | exact h2 ⟨hx0, hx1⟩
             | exact h3 ⟨hy0, hy1⟩
             | omega)

/-! ### Helper lemmas: vector arithmetic -/

theorem dot_nil (b : List ℝ) : dot [] b = 0 := by
  simp [dot]

theorem dot_cons (a : ℝ) (v : List ℝ) (b : ℝ) (w : List ℝ) :
    dot (a :: v) (b :: w) = a * b + dot v w := by
  simp [dot]

theorem l2normSq_cons (x : ℝ) (v : List ℝ) : l2normSq (x :: v) = x * x + l2normSq v := by
  simp [l2normSq, dot]

theorem l2normSq_nonneg (v : List ℝ) : 0 ≤ l2normSq v := by
  induction v with
  | nil => simp [l2normSq, dot]
  | cons x t ih =>
    rw [l2normSq_cons]
    have := mul_self_nonneg x
    linarith

theorem l2normSq_map_div (v : List ℝ) (n : ℝ) :
    l2normSq (v.map (fun x => x / n)) = l2normSq v / (n * n) := by
  induction v with
  | nil => simp [l2normSq, dot]
  | cons x t ih =>
    simp only [List.map_cons, l2normSq_cons, ih]
    rw [div_mul_div_comm, div_add_div_same]

theorem l2norm_msNormalize {v : List ℝ} (h : 0 < l2norm v) : l2norm (msNormalize v) = 1 := by
  have hsq : 0 < l2normSq v := by
    have := Real.sqrt_pos.mp (by simpa [l2norm] using h)
    exact this
  unfold msNormalize
  rw [if_pos h]
  show Real.sqrt (l2normSq (v.map (fun x => x / l2norm v))) = 1
  rw [l2normSq_map_div]
  rw [show l2norm v * l2norm v = l2normSq v from Real.mul_self_sqrt (l2normSq_nonneg v)]
  rw [div_self (ne_of_gt hsq), Real.sqrt_one]

/-! ### Claim C3: normalization at insertion -/

theorem msUpsert_norm {recs : List VRecord} {r : VRecord}
    (h : ∀ x ∈ recs, l2norm x.emb = 1) (hr : l2norm r.emb = 1) :
    ∀ x ∈ msUpsert recs r, l2norm x.emb = 1 := by
  intro x hx
  unfold msUpsert at hx
  split at hx
  · obtain ⟨y, hy, hxy⟩ := List.mem_map.mp hx
    split at hxy
    · rw [← hxy]
      exact hr
    · rw [← hxy]
      exact h y hy
  · rcases List.mem_append.mp hx with h1 | h1
    · exact h x h1
    · have : x = r := by simpa using h1
      rw [this]
      exact hr

theorem addLoop_unitNorm (ids : List String) (metadata : Option (List Md)) :
    ∀ (pairs : List (String × List ℝ)) (recs : List VRecord) (i : Nat)
      (out : List VRecord),
      (∀ r ∈ recs, l2norm r.emb = 1) → (∀ p ∈ pairs, 0 < l2norm p.2) →
      addLoop ids metadata recs i pairs = .ok out → ∀ r ∈ out, l2norm r.emb = 1 := by
  intro pairs
  induction pairs with
  | nil =>
    intro recs i out h _ hout
    have : recs = out := by simpa [addLoop] using hout
    rw [← this]
    exact h
  | cons p rest ih =>
    intro recs i out h hp hout
    obtain ⟨t, e⟩ := p
    unfold addLoop at hout
    split at hout
    · refine ih _ _ _ ?_ (fun q hq => hp q (List.mem_cons_of_mem _ hq)) hout
      exact msUpsert_norm h
        (l2norm_msNormalize (hp (t, e) (List.mem_cons_self _ _)))
    · simp at hout

/-- C3 (amended): `MemoryStore.add_texts` normalizes every supplied embedding
of positive L2 norm to unit length before storing, so the unit-norm invariant
is preserved across any add.  (The original claim also asserted this for
`MemoryVectorStore`, whose `add_text`/`add_texts` store embeddings exactly as
supplied — refuted by `mvstore_not_normalized_counterexample` — and an
embedding of zero norm is stored unchanged by the `norm > 0` guard.) -/
theorem memstore_add_normalizes (st : MemoryStore) (texts : List String)
    (embeddings : List (List ℝ)) (metadata : Option (List Md)) (ids0 : Option (List String))
    (gen : List String) (st2 : MemoryStore) (rids : List String)
    (hinv : UnitNorm st) (hpos : ∀ e ∈ embeddings, 0 < l2norm e)
    (hadd : MemoryStore.add_texts st texts embeddings metadata ids0 gen = .ok (st2, rids)) :
    UnitNorm st2 := by
  unfold MemoryStore.add_texts at hadd
  set ids := (match ids0 with
    | none => gen.take texts.length
    | some l => l) with hids
  dsimp only at hadd
  cases heq : addLoop ids metadata st.records 0 (texts.zip embeddings) with
  | ok recs =>
    rw [heq] at hadd
    simp only [Except.ok.injEq, Prod.mk.injEq] at hadd
    rw [← hadd.1]
    intro r hr
    refine addLoop_unitNorm ids metadata (texts.zip embeddings) st.records 0 recs hinv ?_ heq r hr
    intro p hp
    exact hpos p.2 (List.of_mem_zip hp).2
  | error e =>
    rw [heq] at hadd
    simp at hadd

/-- Witness for `memstore_add_normalizes`: adding the embedding `[1, 0]` to
an empty store yields a store whose records all have unit norm. -/
theorem memstore_add_normalizes_witness :
    UnitNorm ⟨[⟨"id1", "a", [1, 0], []⟩]⟩ := by
  have h1 : l2normSq ([1, 0] : List ℝ) = 1 := by norm_num [l2normSq, dot]
  have h2 : l2norm ([1, 0] : List ℝ) = 1 := by rw [l2norm, h1, Real.sqrt_one]
  refine memstore_add_normalizes ⟨[]⟩ ["a"] [[1, 0]] none none ["id1"]
    ⟨[⟨"id1", "a", [1, 0], []⟩]⟩ ["id1"] ?_ ?_ ?_
  · intro r hr
    simp at hr
  · intro e he
    simp only [List.mem_singleton] at he
    rw [he, h2]
    norm_num
  · simp [MemoryStore.add_texts, addLoop, msUpsert, msNormalize, mdAt, h2]

/-- C3 counterexample: `MemoryVectorStore.add_text` stores the supplied
embedding `[2, 0]` unchanged, and its L2 norm is 2, not 1. -/
theorem mvstore_not_normalized_counterexample :
    (mvAddText (fun _ => []) ⟨[], [], []⟩ "a" none (some [2, 0])).embeddings = [[2, 0]] ∧
    l2norm [2, 0] = 2 ∧ (2 : ℝ) ≠ 1 := by
  refine ⟨by simp [mvAddText], ?_, by norm_num⟩
  have h4 : l2normSq ([2, 0] : List ℝ) = 4 := by norm_num [l2normSq, dot]
  rw [l2norm, h4, show (4 : ℝ) = 2 ^ 2 by norm_num,
    Real.sqrt_sq (by norm_num : (0 : ℝ) ≤ 2)]

/-! ### Claim C8: no length validation on add -/

theorem msUpsert_fresh {recs : List VRecord} {r : VRecord}
    (h : ∀ x ∈ recs, x.id ≠ r.id) : msUpsert recs r = recs ++ [r] := by
  unfold msUpsert
  rw [if_neg]
  intro hc
  obtain ⟨x, hx, hbe⟩ := List.any_eq_true.mp hc
  exact h x hx (by simpa using hbe)

theorem addLoop_ok_length (ids : List String) (metadata : Option (List Md)) :
    ∀ (pairs : List (String × List ℝ)) (recs : List VRecord) (i : Nat),
      i + pairs.length ≤ ids.length →
      (∀ j : Nat, i ≤ j → ∀ (hj : j < ids.length), ∀ x ∈ recs, x.id ≠ ids.get ⟨j, hj⟩) →
      ids.Nodup →
      ∃ out, addLoop ids metadata recs i pairs = .ok out ∧
        out.length = recs.length + pairs.length := by
  intro pairs
  induction pairs with
  | nil =>
    intro recs i h1 h2 h3
    exact ⟨recs, rfl, by simp⟩
  | cons p rest ih =>
    intro recs i h1 h2 h3
    obtain ⟨t, e⟩ := p
    have hi : i < ids.length := by
      simp only [List.length_cons] at h1
      omega
    have hup : msUpsert recs ⟨ids.get ⟨i, hi⟩, t, msNormalize e, mdAt metadata i⟩ =
        recs ++ [⟨ids.get ⟨i, hi⟩, t, msNormalize e, mdAt metadata i⟩] :=
      msUpsert_fresh (fun x hx => h2 i le_rfl hi x hx)
    have hfresh : ∀ j : Nat, i + 1 ≤ j → ∀ (hj : j < ids.length),
        ∀ x ∈ recs ++ [(⟨ids.get ⟨i, hi⟩, t, msNormalize e, mdAt metadata i⟩ : VRecord)],
          x.id ≠ ids.get ⟨j, hj⟩ := by
      intro j hj hjlt x hx
      rcases List.mem_append.mp hx with hx | hx
      · exact h2 j (by omega) hjlt x hx
      · have hxr : x = ⟨ids.get ⟨i, hi⟩, t, msNormalize e, mdAt metadata i⟩ := by
          simpa using hx
        subst hxr
        intro hcon
        have : (⟨i, hi⟩ : Fin ids.length) = ⟨j, hjlt⟩ := (h3.get_inj_iff).mp hcon
        have : i = j := congrArg Fin.val this
        omega
    obtain ⟨out, hout, hlen⟩ := ih (recs ++ [⟨ids.get ⟨i, hi⟩, t, msNormalize e, mdAt metadata i⟩])
      (i + 1) (by simp only [List.length_cons] at h1; omega) hfresh h3
    refine ⟨out, ?_, ?_⟩
    · unfold addLoop
      rw [dif_pos hi, hup]
      exact hout
    · have hone : (recs ++ [(⟨ids.get ⟨i, hi⟩, t, msNormalize e, mdAt metadata i⟩ : VRecord)]).length =
          recs.length + 1 := by simp
      rw [hlen, hone]
      simp only [List.length_cons]
      omega

/-- C8 (amended): the add operations perform no length validation.
`MemoryStore.add_texts` zips `texts` with `embeddings`, silently inserting
exactly `min(len(texts), len(embeddings))` records while returning one
(generated) id per text — when `texts` is longer, ids are returned for texts
that were never stored; when `embeddings` is longer, the extras are ignored.
`MemoryVectorStore.add_texts` extends its three parallel lists unchecked, so
mismatched lengths silently misalign the store.  Neither raises an error. -/
theorem add_texts_no_length_validation
    (st : MemoryStore) (texts : List String) (embeddings : List (List ℝ)) (gen : List String)
    (h1 : texts.length ≤ gen.length) (h2 : gen.Nodup)
    (h3 : ∀ g ∈ gen, ∀ r ∈ st.records, r.id ≠ g) :
    (∃ st2 rids, MemoryStore.add_texts st texts embeddings none none gen = .ok (st2, rids) ∧
      rids.length = texts.length ∧
      st2.records.length = st.records.length + min texts.length embeddings.length) ∧
    (∀ (provider : List String → List (List ℝ)) (st0 : MVStore) (ts : List String)
      (mds : Option (List Md)) (embs : List (List ℝ)),
      (mvAddTexts provider st0 ts mds (some embs)).texts.length = st0.texts.length + ts.length ∧
      (mvAddTexts provider st0 ts mds (some embs)).embeddings.length =
        st0.embeddings.length + embs.length) := by
  constructor
  · have hidslen : (gen.take texts.length).length = texts.length := by
      rw [List.length_take]
      omega
    obtain ⟨out, hout, hlen⟩ := addLoop_ok_length (gen.take texts.length) none
      (texts.zip embeddings) st.records 0
      (by rw [List.length_zip, hidslen]; omega)
      (by
        intro j hj hjlt x hx
        have hmem : (gen.take texts.length).get ⟨j, hjlt⟩ ∈ gen :=
          (List.take_sublist _ _).subset (List.get_mem _ _ _)
        exact h3 _ hmem x hx)
      (List.Nodup.sublist (List.take_sublist _ _) h2)
    refine ⟨⟨out⟩, gen.take texts.length, ?_, hidslen, ?_⟩
    · simp only [MemoryStore.add_texts]
      rw [hout]
    · rw [hlen, List.length_zip]
  · intro provider st0 ts mds embs
    constructor <;> simp [mvAddTexts]

/-- Witness for `add_texts_no_length_validation`: two texts, one embedding,
two generated ids — the call succeeds, returns two ids, stores one record. -/
theorem add_texts_no_length_validation_witness :
    (∃ st2 rids, MemoryStore.add_texts ⟨[]⟩ ["a", "b"] [[1, 0]] none none ["i1", "i2"] =
        .ok (st2, rids) ∧ rids.length = 2 ∧ st2.records.length = 0 + min 2 1) ∧
    (∀ (provider : List String → List (List ℝ)) (st0 : MVStore) (ts : List String)
      (mds : Option (List Md)) (embs : List (List ℝ)),
      (mvAddTexts provider st0 ts mds (some embs)).texts.length = st0.texts.length + ts.length ∧
      (mvAddTexts provider st0 ts mds (some embs)).embeddings.length =
        st0.embeddings.length + embs.length) :=
  add_texts_no_length_validation ⟨[]⟩ ["a", "b"] [[1, 0]] ["i1", "i2"]
    (by decide) (by decide) (by intro g hg r hr; simp at hr)

/-- C8 counterexample: `add_texts` with two texts and one embedding does not
fail fast and does not store nothing: it succeeds, stores one record, and
returns two ids. -/
theorem add_texts_truncates_counterexample :
    MemoryStore.add_texts ⟨[]⟩ ["a", "b"] [[1, 0]] none none ["i1", "i2"] =
      .ok (⟨[⟨"i1", "a", [1, 0], []⟩]⟩, ["i1", "i2"]) := by
  have h1 : l2normSq ([1, 0] : List ℝ) = 1 := by norm_num [l2normSq, dot]
  have h2 : l2norm ([1, 0] : List ℝ) = 1 := by rw [l2norm, h1, Real.sqrt_one]
  simp [MemoryStore.add_texts, addLoop, msUpsert, msNormalize, mdAt, h2]

/-! ### Claim C4: self-similarity search -/

theorem rawNormalize_of_normSq_one {v : List ℝ} (h : l2normSq v = 1) : rawNormalize v = v := by
  have hn : l2norm v = 1 := by rw [l2norm, h, Real.sqrt_one]
  simp [rawNormalize, hn]

theorem msScore_cosine (q e : List ℝ) : msScore "cosine" q e = 1 - dot q e := by
  simp [msScore]

theorem msFilterOk_none (md : Md) : msFilterOk none md = true := rfl

/-- C4 (amended): under the cosine metric, `MemoryStore.search` scores each
record with the cosine distance `1 - dot` and sorts ascending (smallest
distance first), so querying with an embedding whose normalization equals a
stored record's embedding — the stored records being unit vectors, as `add`
leaves them, with every other record strictly less than collinear — returns
that record first with reported score 0.0 (not the similarity ≈ 1.0 the
original claim states, which is refuted by
`memstore_self_similarity_score_counterexample`). -/
theorem memstore_cosine_self_similarity (st : MemoryStore) (r : VRecord) (q : List ℝ)
    (k : Nat) (hr : r ∈ st.records) (hq : rawNormalize q = r.emb)
    (hunit : dot r.emb r.emb = 1)
    (hother : ∀ x ∈ st.records, x ≠ r → dot r.emb x.emb < 1) (hk : 1 ≤ k) :
    ∃ res, (msSearch st "cosine" q k none).head? = some res ∧
      res.id = r.id ∧ res.score = 0 := by
  classical
  unfold msSearch
  dsimp only
  rw [hq]
  have hfilter : st.records.filter (fun x => msFilterOk none x.meta) = st.records := by
    simp [msFilterOk_none]
  rw [hfilter]
  set f : VRecord → VectorSearchResult := fun x =>
    VectorSearchResult.mk x.id x.text x.meta (msScore "cosine" r.emb x.emb) x.emb with hf
  set L := st.records.map f with hL
  have hscore : ∀ x : VRecord, (f x).score = 1 - dot r.emb x.emb := by
    intro x
    rw [hf]
    exact msScore_cosine r.emb x.emb
  have hfr_score : (f r).score = 0 := by
    rw [hscore, hunit]
    ring
  have hnonneg : ∀ res ∈ L, res.score ≤ 0 → res.id = r.id ∧ res.score = 0 := by
    intro res hres hle
    obtain ⟨x, hx, hfx⟩ := List.mem_map.mp hres
    by_cases hxr : x = r
    · subst hxr
      rw [← hfx]
      exact ⟨rfl, le_antisymm (by rw [← hfx] at hle; exact hle) (by rw [hscore, hunit]; norm_num)⟩
    · have hlt := hother x hx hxr
      have : 0 < res.score := by
        rw [← hfx, hscore]
        linarith
      linarith
  haveI : IsTotal VectorSearchResult (fun a b => a.score ≤ b.score) :=
    ⟨fun a b => le_total _ _⟩
  haveI : IsTrans VectorSearchResult (fun a b => a.score ≤ b.score) :=
    ⟨fun a b c hab hbc => le_trans hab hbc⟩
  have hperm := List.perm_insertionSort (fun a b => a.score ≤ b.score) L
  have hsorted := List.sorted_insertionSort (fun a b => a.score ≤ b.score) L
  have hfrL : f r ∈ L := List.mem_map_of_mem f hr
  cases hS : List.insertionSort (fun a b => a.score ≤ b.score) L with
  | nil =>
    rw [hS] at hperm
    have : L = [] := hperm.symm.eq_nil
    rw [this] at hfrL
    simp at hfrL
  | cons h t =>
    rw [hS] at hperm hsorted
    have hhL : h ∈ L := hperm.mem_iff.mp (List.mem_cons_self h t)
    have hfr_in : f r ∈ h :: t := hperm.mem_iff.mpr hfrL
    have hle : h.score ≤ (f r).score := by
      rcases List.mem_cons.mp hfr_in with heq | hmem
      · rw [← heq]
      · exact List.rel_of_sorted_cons hsorted _ hmem
    rw [hfr_score] at hle
    obtain ⟨hid, hsc⟩ := hnonneg h hhL hle
    refine ⟨h, ?_, hid, hsc⟩
    rw [List.head?_take]
    have hk0 : k ≠ 0 := by omega
    rw [if_neg hk0]
    rfl

/-- Witness for `memstore_cosine_self_similarity` at a concrete one-record
store. -/
theorem memstore_cosine_self_similarity_witness :
    ∃ res, (msSearch ⟨[⟨"id1", "t", [1, 0], []⟩]⟩ "cosine" [1, 0] 5 none).head? = some res ∧
      res.id = "id1" ∧ res.score = 0 := by
  have h1 : l2normSq ([1, 0] : List ℝ) = 1 := by norm_num [l2normSq, dot]
  refine memstore_cosine_self_similarity ⟨[⟨"id1", "t", [1, 0], []⟩]⟩ ⟨"id1", "t", [1, 0], []⟩
    [1, 0] 5 (by simp) (rawNormalize_of_normSq_one h1) (by norm_num [dot]) ?_ (by omega)
  intro x hx hne
  simp only [List.mem_singleton] at hx
  exact absurd hx hne

/-- C4 counterexample: for a store holding one unit vector `[1, 0]`, a cosine
search with that exact embedding reports score 0.0 (the distance `1 - cos`),
not a similarity ≈ 1.0; the list is sorted ascending by this distance. -/
theorem memstore_self_similarity_score_counterexample :
    (msSearch ⟨[⟨"id1", "t", [1, 0], []⟩]⟩ "cosine" [1, 0] 5 none).map
      (fun res => (res.id, res.score)) = [("id1", 0)] ∧ ¬((0.9 : ℝ) ≤ 0) := by
  have h1 : l2normSq ([1, 0] : List ℝ) = 1 := by norm_num [l2normSq, dot]
  have hq : rawNormalize ([1, 0] : List ℝ) = [1, 0] := rawNormalize_of_normSq_one h1
  constructor
  · unfold msSearch
    dsimp only
    rw [hq]
    have hsc : msScore "cosine" ([1, 0] : List ℝ) [1, 0] = 0 := by
      rw [msScore_cosine]
      norm_num [dot]
    simp [List.insertionSort, List.orderedInsert, hsc]
  · norm_num

/-! ### Claim C5: greedy duplicate suppression -/

theorem filterDupsLoop_sublist (embed : String → List ℝ) (θ : ℝ) :
    ∀ (chunks : List RetrievedChunk) (seen : List (List ℝ)),
      (filterDupsLoop embed θ chunks seen).Sublist chunks := by
  intro chunks
  induction chunks with
  | nil =>
    intro seen
    simp [filterDupsLoop]
  | cons c rest ih =>
    intro seen
    unfold filterDupsLoop
    dsimp only
    split
    · exact (ih seen).trans (List.sublist_cons_self c rest)
    · exact (ih _).cons₂ c

/-- C5: `_filter_duplicates` processes candidates in order, dropping a
candidate exactly when the dot product of its normalized embedding with some
previously accepted normalized embedding strictly exceeds the threshold, and
returns the accepted candidates as a sublist (original relative order); in
particular, of two candidates whose embeddings have cosine similarity 0.99
under threshold 0.95, only the first is returned. -/
theorem filter_duplicates_greedy :
    (∀ (embed : String → List ℝ) (θ : ℝ) (chunks : List RetrievedChunk),
      (filter_duplicates embed θ chunks).Sublist chunks) ∧
    filter_duplicates
        (fun t => if t = "a" then [1, 0] else [(0.99 : ℝ), Real.sqrt 0.0199]) 0.95
        [⟨⟨"a", [], 0, 1, 0⟩, 1, 1⟩, ⟨⟨"b", [], 0, 1, 1⟩, 0.99, 2⟩] =
      [⟨⟨"a", [], 0, 1, 0⟩, 1, 1⟩] := by
  constructor
  · intro embed θ chunks
    unfold filter_duplicates
    split
    · exact List.Sublist.refl chunks
    · exact filterDupsLoop_sublist embed θ chunks []
  · have hs : Real.sqrt 0.0199 * Real.sqrt 0.0199 = 0.0199 :=
      Real.mul_self_sqrt (by norm_num)
    have hnil : l2normSq ([] : List ℝ) = 0 := by simp [l2normSq, dot]
    have h1 : rawNormalize ([1, 0] : List ℝ) = [1, 0] :=
      rawNormalize_of_normSq_one (by norm_num [l2normSq, dot])
    have h2 : rawNormalize [(0.99 : ℝ), Real.sqrt 0.0199] = [(0.99 : ℝ), Real.sqrt 0.0199] := by
      refine rawNormalize_of_normSq_one ?_
      rw [l2normSq_cons, l2normSq_cons, hnil, hs]
      norm_num
    have hdot : dot [(0.99 : ℝ), Real.sqrt 0.0199] [1, 0] = 0.99 := by
      rw [dot_cons, dot_cons, dot_nil]
      ring
    unfold filter_duplicates
    rw [if_neg (by simp)]
    unfold filterDupsLoop
    dsimp only
    rw [if_pos (rfl : ("a" : String) = "a")]
    rw [h1, List.any_nil]
    rw [if_neg (by simp : ¬(false = true))]
    unfold filterDupsLoop
    dsimp only
    rw [if_neg (by decide : ¬(("b" : String) = "a"))]
    rw [h2, List.nil_append]
    rw [show ([[(1 : ℝ), 0]].any fun se =>
        decide ((0.95 : ℝ) < dot [(0.99 : ℝ), Real.sqrt 0.0199] se)) = true from by
      rw [List.any_cons, hdot]
      rw [decide_eq_true (by norm_num : (0.95 : ℝ) < 0.99)]
      simp]
    rw [if_pos rfl]
    simp [filterDupsLoop]

/-! ### Claim C10: shape of similarity-search results -/

theorem buildResults_get (texts : List String) (metadatas : List Md) :
    ∀ (l : List (Nat × ℝ)) (i0 i : Nat) (res : SearchResult),
      (buildResults texts metadatas i0 l).get? i = some res →
      ∃ p ∈ l, res = ⟨⟨texts.getD p.1 "", metadatas.getD p.1 [], 0,
        ((texts.getD p.1 "").length : Int), i0 + i⟩, p.2⟩ := by
  intro l
  induction l with
  | nil =>
    intro i0 i res h
    simp [buildResults] at h
  | cons p rest ih =>
    intro i0 i res h
    obtain ⟨idx, s⟩ := p
    cases i with
    | zero =>
      simp only [buildResults, List.get?_cons_zero, Option.some.injEq] at h
      refine ⟨(idx, s), List.mem_cons_self _ _, ?_⟩
      rw [← h]
      simp
    | succ j =>
      simp only [buildResults, List.get?_cons_succ] at h
      obtain ⟨q, hq, hres⟩ := ih (i0 + 1) j res h
      refine ⟨q, List.mem_cons_of_mem _ hq, ?_⟩
      have harith : i0 + 1 + j = i0 + (j + 1) := by omega
      rw [hres, harith]

theorem collectSims_mem (filters : Option Md) (metadatas : List Md) (m : ℝ) :
    ∀ (l : List ℝ) (i0 : Nat) (p : Nat × ℝ),
      p ∈ collectSims filters metadatas m i0 l → i0 ≤ p.1 ∧ p.1 < i0 + l.length := by
  intro l
  induction l with
  | nil =>
    intro i0 p h
    simp [collectSims] at h
  | cons s rest ih =>
    intro i0 p h
    unfold collectSims at h
    split at h
    · rcases List.mem_cons.mp h with heq | hmem
      · subst heq
        simp
      · have := ih (i0 + 1) p hmem
        simp only [List.length_cons]
        omega
    · have := ih (i0 + 1) p h
      simp only [List.length_cons]
      omega

/-- C10: every result of `MemoryVectorStore.similarity_search` carries a
rebuilt `TextChunk` with `start_char = 0`, `end_char = len(stored text)`,
the store's metadata entry, and `chunk_index` equal to the result's 0-based
position in the returned ranked list (not the chunk's original index). -/
theorem similarity_search_result_shape (st : MVStore) (q : List ℝ) (k : Nat) (m : ℝ)
    (filters : Option Md) (i : Nat) (res : SearchResult)
    (hwf : st.embeddings.length = st.texts.length)
    (hres : (MVStore.similarity_search st q k m filters).get? i = some res) :
    res.chunk.start_char = 0 ∧ res.chunk.end_char = (res.chunk.text.length : Int) ∧
    res.chunk.chunk_index = i ∧
    ∃ idx, idx < st.texts.length ∧ res.chunk.text = st.texts.getD idx "" ∧
      res.chunk.metadata = st.metadatas.getD idx [] := by
  unfold MVStore.similarity_search at hres
  split at hres
  · simp at hres
  · dsimp only at hres
    obtain ⟨p, hp, hres_eq⟩ := buildResults_get st.texts st.metadatas _ 0 i res hres
    have hp2 : p ∈ collectSims filters st.metadatas m 0
        (st.embeddings.map (fun e => dot e q)) := by
      have hsub : p ∈ List.insertionSort (fun a b => b.2 ≤ a.2)
          (collectSims filters st.metadatas m 0 (st.embeddings.map (fun e => dot e q))) :=
        (List.take_sublist k _).subset hp
      exact (List.perm_insertionSort (fun a b => b.2 ≤ a.2) _).mem_iff.mp hsub
    obtain ⟨h0, hlt⟩ := collectSims_mem filters st.metadatas m _ 0 p hp2
    rw [List.length_map, hwf] at hlt
    rw [hres_eq]
    exact ⟨rfl, rfl, by simp, p.1, by omega, rfl, rfl⟩

/-- Witness for `similarity_search_result_shape` at a concrete one-record
store. -/
theorem similarity_search_result_shape_witness :
    (⟨⟨"t", [], 0, 1, 0⟩, 1⟩ : SearchResult).chunk.start_char = 0 ∧
    (⟨⟨"t", [], 0, 1, 0⟩, 1⟩ : SearchResult).chunk.end_char =
      (((⟨⟨"t", [], 0, 1, 0⟩, 1⟩ : SearchResult)).chunk.text.length : Int) ∧
    (⟨⟨"t", [], 0, 1, 0⟩, 1⟩ : SearchResult).chunk.chunk_index = 0 ∧
    ∃ idx, idx < (["t"] : List String).length ∧
      (⟨⟨"t", [], 0, 1, 0⟩, 1⟩ : SearchResult).chunk.text = (["t"] : List String).getD idx "" ∧
      (⟨⟨"t", [], 0, 1, 0⟩, 1⟩ : SearchResult).chunk.metadata =
        ([[]] : List Md).getD idx [] := by
  have hd : dot ([1, 0] : List ℝ) [1, 0] = 1 := by
    rw [dot_cons, dot_cons, dot_nil]
    ring
  refine similarity_search_result_shape ⟨["t"], [[1, 0]], [[]]⟩ [1, 0] 1 0 none 0
    ⟨⟨"t", [], 0, 1, 0⟩, 1⟩ rfl ?_
  unfold MVStore.similarity_search
  rw [if_neg (by simp)]
  dsimp only
  rw [show ([[1, 0]] : List (List ℝ)).map (fun e => dot e [1, 0]) = [1] from by
    simp only [List.map_cons, List.map_nil, hd]]
  unfold collectSims
  rw [if_pos ⟨rfl, by norm_num⟩]
  unfold collectSims
  simp [List.insertionSort, List.orderedInsert, buildResults]
  rfl

end Gandalf
